import Mathlib

/-!
Verification of the bernoulli-distribution crate (src/lib.rs).

The crate provides a single generator, `BernoulliRng`, which wraps a uniform
random source and produces 32-bit words whose bits are Bernoulli(p) samples,
using an arithmetic-coding-style interval-narrowing loop plus a 64-bit
entropy reservoir.

Embedding notes:
- Construction-time validation (`BernoulliRng::new`) operates on `f64` values
  and inspects the IEEE sign bit; it performs no arithmetic.  We model the
  `f64` inputs with an inductive type `F64` carrying NaN, infinities and
  finite values (a rational magnitude plus the sign bit for zero), together
  with the IEEE comparison semantics (comparisons with NaN are false).
- The interval-narrowing loop is embedded twice.  The first embedding
  performs the arithmetic on `low`, `high`, `p` over exact `ℚ`, the real
  numbers of the specification's data model; the branch structure, update
  formulas and entropy accounting are translated from the source verbatim
  (the Rust literal `0.5` is written `1 / 2` and `x.recip()` is written
  `x⁻¹`).  This exact model supports the structural and integer-level
  claims, and the idealized interval invariant.  The second embedding keeps
  the actual binary64 semantics: values are significand-exponent pairs and
  every operation rounds to 53 significant bits, to nearest, ties to even.
  It exhibits an input on which the floating-point program collapses the
  interval to `low = high` across a completed call, which the exact model
  excludes.
- The `while i != 32` loop need not terminate for adversarial bit sources,
  so it is embedded with an explicit fuel parameter; `none` means the loop
  was still running when the fuel ran out.  Machine words are `ℕ` reduced
  `% 2 ^ 64` (reservoir) and `% 2 ^ 32` (output word).
-/

/-- Model of an IEEE-754 double as far as `BernoulliRng::new` inspects it:
NaN and infinities carry their sign bit; a finite value carries its exact
numeric value `q : ℚ` plus the sign bit `negZero`, which is only meaningful
when `q = 0` (for nonzero finite values the sign bit is the sign of `q`). -/
inductive F64 where
  | nan (neg : Bool)
  | inf (neg : Bool)
  | finite (q : ℚ) (negZero : Bool)
deriving DecidableEq

/-- Model of `f64::is_nan`. -/
def F64.isNaN : F64 → Bool
  | .nan _ => true
  | _ => false

/-- Model of `f64::is_sign_negative`: the raw IEEE sign bit. -/
def F64.isSignNegative : F64 → Bool
  | .nan b => b
  | .inf b => b
  | .finite q nz => if q = 0 then nz else decide (q < 0)

/-- Model of the IEEE `<` comparison on doubles: any comparison involving a
NaN is false; `-0.0 < 0.0` is false (the two zeros compare equal). -/
def F64.lt : F64 → F64 → Bool
  | .nan _, _ => false
  | _, .nan _ => false
  | .inf true, .inf true => false
  | .inf true, _ => true
  | _, .inf true => false
  | .inf false, _ => false
  | _, .inf false => true
  | .finite q _, .finite r _ => decide (q < r)

/-- Model of the IEEE `<=` comparison on doubles: false whenever either side
is NaN. -/
def F64.le : F64 → F64 → Bool
  | .nan _, _ => false
  | _, .nan _ => false
  | .inf true, _ => true
  | _, .inf false => true
  | _, .inf true => false
  | .inf false, _ => false
  | .finite q _, .finite r _ => decide (q ≤ r)

/-- Model of the IEEE `>` comparison (Rust `a > b`), i.e. `b < a`. -/
def F64.gt (a b : F64) : Bool := F64.lt b a

/-- The float `1.0`. -/
def F64.one : F64 := .finite 1 false

/-- The float `0.0` (positive zero). -/
def F64.zero : F64 := .finite 0 false

/-- Model of the crate's `Error` enum. -/
inductive Error where
  | invalidProbability
deriving DecidableEq

/-- The fields of a freshly constructed `BernoulliRng` other than the owned
uniform source, as initialised by `BernoulliRng::new` (the `f64` fields kept
at the `F64` level of the construction model). -/
structure BernoulliInit where
  p : F64
  low : F64
  high : F64
  shift : ℕ
  bits : ℕ
deriving DecidableEq

namespace BernoulliRng

/-- Model of `BernoulliRng::new`: reject when the probability is
sign-negative or greater than `1.0`, otherwise initialise the interval to
`[0.0, 1.0]` and the reservoir to empty. -/
def new (probability : F64) : Except Error BernoulliInit :=
  if probability.isSignNegative || F64.gt probability F64.one then
    .error .invalidProbability
  else
    .ok { p := probability, low := F64.zero, high := F64.one, shift := 0, bits := 0 }

end BernoulliRng

/-- State of a `BernoulliRng<R>` whose construction succeeded, with the
numeric fields at the specification's real-number (here `ℚ`) level.  The
owned uniform source `R` is modelled extensionally as the stream `src` of
64-bit words it will return, together with `pos`, the number of words drawn
so far (so `rng.next_u64()` returns `src pos` and advances `pos`). -/
structure GenState where
  p : ℚ
  low : ℚ
  high : ℚ
  shift : ℕ
  bits : ℕ
  src : ℕ → ℕ
  pos : ℕ

/-- The generator state produced by a successful `BernoulliRng::new`:
interval `[0.0, 1.0]`, empty reservoir. -/
def mkGen (p : ℚ) (src : ℕ → ℕ) : GenState :=
  { p := p, low := 0, high := 1, shift := 0, bits := 0, src := src, pos := 0 }

/-- Model of `BernoulliRng::next_bit`: refill the reservoir from the
underlying source when `shift == 0`, then return the least-significant
buffered bit, shift the buffer right by one and decrement the count. -/
def next_bit (s : GenState) : Bool × GenState :=
  let s := if s.shift = 0 then
    { s with bits := s.src s.pos % 2 ^ 64, shift := 64, pos := s.pos + 1 }
  else s
  (s.bits % 2 == 1, { s with bits := s.bits / 2, shift := s.shift - 1 })

/-- The local state of the `while i != 32` loop in `next_u32`: the partially
built output word `ret`, the number `i` of bits emitted so far, the working
copies of `high` and `low`, and the mutable generator (`self`) as seen by
`next_bit`. -/
structure LoopSt where
  ret : ℕ
  i : ℕ
  high : ℚ
  low : ℚ
  gen : GenState

/-- One iteration of the loop body of `next_u32`, parameterised by the
per-call constants `p`, `p_recip = p.recip()` and `pinv_recip =
(1.0 - p).recip()`.  `ret << 1 | b` on a `u32` is `(ret * 2 + b) % 2 ^ 32`;
the literal `0.5` is `1 / 2`. -/
def loopStep (p pRecip pinvRecip : ℚ) (st : LoopSt) : LoopSt :=
  if st.high < p then
    { st with ret := (st.ret * 2 + 1) % 2 ^ 32, i := st.i + 1,
              low := st.low * pRecip, high := st.high * pRecip }
  else if st.low > p then
    { st with ret := (st.ret * 2) % 2 ^ 32, i := st.i + 1,
              low := (st.low - p) * pinvRecip, high := (st.high - p) * pinvRecip }
  else
    let mid := 1 / 2 * (st.low + st.high)
    match next_bit st.gen with
    | (true, g) => { st with low := mid, gen := g }
    | (false, g) => { st with high := mid, gen := g }

/-- The `while i != 32` loop of `next_u32`, with explicit fuel: `none` means
the loop had not finished after `fuel` iterations. -/
def runLoop (p pRecip pinvRecip : ℚ) : ℕ → LoopSt → Option LoopSt
  | 0, st => if st.i = 32 then some st else none
  | fuel + 1, st =>
    if st.i = 32 then some st
    else runLoop p pRecip pinvRecip fuel (loopStep p pRecip pinvRecip st)

/-- Model of `BernoulliRng::next_u32`: seed the working interval from the
persisted one, precompute the reciprocals once per call, run the loop, and
on completion persist the final interval and return the packed word. -/
def next_u32 (fuel : ℕ) (s : GenState) : Option (ℕ × GenState) :=
  match runLoop s.p s.p⁻¹ (1 - s.p)⁻¹ fuel
      { ret := 0, i := 0, high := s.high, low := s.low, gen := s } with
  | none => none
  | some st => some (st.ret, { st.gen with high := st.high, low := st.low })

/-- The sequence of output words produced by `n` successive calls to
`next_u32`, each given `fuel` loop iterations; `none` if any call fails to
finish within its fuel. -/
def outWords (fuel : ℕ) : ℕ → GenState → Option (List ℕ)
  | 0, _ => some []
  | n + 1, s =>
    match next_u32 fuel s with
    | none => none
    | some (v, s') => (outWords fuel n s').map (v :: ·)

/-- The between-calls interval invariant of the specification:
`0 ≤ low < high ≤ 1`. -/
def IntervalInv (s : GenState) : Prop := 0 ≤ s.low ∧ s.low < s.high ∧ s.high ≤ 1

/-- The same invariant on the loop's working copies of the interval. -/
def LoopInv (st : LoopSt) : Prop := 0 ≤ st.low ∧ st.low < st.high ∧ st.high ≤ 1

/-- The loop step written out from the specification's own three-way
description (section 4.1, step 2): reciprocals spelled `1 / p` and
`1 / (1 - p)`, success branch when `high < p` with no entropy consumed,
failure branch when `low > p`, and otherwise one fresh uniform bit deciding
which half of the interval survives. -/
def specStep (p : ℚ) (st : LoopSt) : LoopSt :=
  if st.high < p then
    { st with ret := (st.ret * 2 + 1) % 2 ^ 32, i := st.i + 1,
              low := st.low * (1 / p), high := st.high * (1 / p) }
  else if st.low > p then
    { st with ret := (st.ret * 2) % 2 ^ 32, i := st.i + 1,
              low := (st.low - p) * (1 / (1 - p)), high := (st.high - p) * (1 / (1 - p)) }
  else
    let mid := 1 / 2 * (st.low + st.high)
    match next_bit st.gen with
    | (true, g) => { st with low := mid, gen := g }
    | (false, g) => { st with high := mid, gen := g }

/-- The refill half of the specification's reservoir submechanism: when no
bits remain buffered, draw a fresh 64-bit uniform word and reset the
remaining-bit count to 64; otherwise leave the reservoir alone. -/
def reservoirRefill (s : GenState) : GenState :=
  if s.shift = 0 then
    { s with bits := s.src s.pos % 2 ^ 64, shift := 64, pos := s.pos + 1 }
  else s

/-- The consume half of the specification's reservoir submechanism: return
the least-significant buffered bit, shift the reservoir right by one and
decrement the remaining-bit count. -/
def reservoirConsume (s : GenState) : Bool × GenState :=
  (s.bits % 2 == 1, { s with bits := s.bits / 2, shift := s.shift - 1 })

/-- The loop state instrumented with the list of output bits emitted so far
(in emission order), used to state what `ret` packs. -/
structure LoopT where
  ret : ℕ
  i : ℕ
  high : ℚ
  low : ℚ
  gen : GenState
  emitted : List ℕ

/-- The loop body instrumented to record each accepted bit as it is
appended to `ret`; the numeric content is exactly `loopStep`. -/
def loopStepT (p pRecip pinvRecip : ℚ) (st : LoopT) : LoopT :=
  if st.high < p then
    { st with ret := (st.ret * 2 + 1) % 2 ^ 32, i := st.i + 1,
              low := st.low * pRecip, high := st.high * pRecip,
              emitted := st.emitted ++ [1] }
  else if st.low > p then
    { st with ret := (st.ret * 2) % 2 ^ 32, i := st.i + 1,
              low := (st.low - p) * pinvRecip, high := (st.high - p) * pinvRecip,
              emitted := st.emitted ++ [0] }
  else
    let mid := 1 / 2 * (st.low + st.high)
    match next_bit st.gen with
    | (true, g) => { st with low := mid, gen := g }
    | (false, g) => { st with high := mid, gen := g }

/-- The instrumented `while i != 32` loop. -/
def runLoopT (p pRecip pinvRecip : ℚ) : ℕ → LoopT → Option LoopT
  | 0, st => if st.i = 32 then some st else none
  | fuel + 1, st =>
    if st.i = 32 then some st
    else runLoopT p pRecip pinvRecip fuel (loopStepT p pRecip pinvRecip st)

/-- Forget the instrumentation. -/
def eraseT (st : LoopT) : LoopSt :=
  { ret := st.ret, i := st.i, high := st.high, low := st.low, gen := st.gen }

/-- `next_u32` instrumented with the list of emitted bits. -/
def next_u32T (fuel : ℕ) (s : GenState) : Option (ℕ × List ℕ × GenState) :=
  match runLoopT s.p s.p⁻¹ (1 - s.p)⁻¹ fuel
      { ret := 0, i := 0, high := s.high, low := s.low, gen := s, emitted := [] } with
  | none => none
  | some st => some (st.ret, st.emitted, { st.gen with high := st.high, low := st.low })

/-- The packing fold of the specification: `result = result << 1 | bit` on a
`u32`. -/
def packFold (bs : List ℕ) : ℕ := bs.foldl (fun r b => (r * 2 + b) % 2 ^ 32) 0

/-- A source whose every 64-bit word is `1`: its bit stream (LSB first) is
`1, 0, 0, ..., 0, 1, 0, ...`. -/
def oneWordSrc : ℕ → ℕ := fun _ => 1

/-- A source whose every word is `0`: the all-zeros bit stream. -/
def zeroSrc : ℕ → ℕ := fun _ => 0

/-- A source whose every word is all-ones: the all-ones bit stream. -/
def onesSrc : ℕ → ℕ := fun _ => 2 ^ 64 - 1

/-- A source producing the bit stream `1, 0, 0, 0, ...`: word `1` first,
then zero words forever. -/
def altSrc : ℕ → ℕ := fun n => if n = 0 then 1 else 0

/-- A constant source, written directly. -/
def dupSrcA : ℕ → ℕ := fun _ => 5

/-- The same constant source, written so that it is pointwise equal to
`dupSrcA` but not syntactically identical. -/
def dupSrcB : ℕ → ℕ := fun n => 5 + 0 * n

/-- The generator state after one completed `next_u32` call on
`mkGen (1/2) onesSrc`. -/
def c2FinSt : GenState :=
  { p := 1/2, low := 1/2, high := 1, shift := 31, bits := 2147483647,
    src := onesSrc, pos := 1 }

/-- The generator state after one completed `next_u32` call on
`mkGen 0 oneWordSrc`. -/
def degSt0 : GenState :=
  { p := 0, low := 1/2, high := 1, shift := 63, bits := 0,
    src := oneWordSrc, pos := 1 }

/-- The generator state after one completed `next_u32` call on
`mkGen 1 zeroSrc`. -/
def degSt1 : GenState :=
  { p := 1, low := 0, high := 1/2, shift := 63, bits := 0,
    src := zeroSrc, pos := 1 }

/-- A binary64 value in the second, rounding-aware embedding: the finite
double `m * 2 ^ e`.  The representation is not kept normalized; the
rounding below always returns a significand of at most 53 bits, and the
exponent is unbounded (no overflow, underflow or subnormals), which agrees
with IEEE binary64 whenever every operand and result is a normal finite
double, as in the evaluation this model is used for. -/
structure F64v where
  m : ℤ
  e : ℤ
deriving DecidableEq

/-- Bit length of a natural number (fuel-recursive). -/
def bitlen : ℕ → ℕ → ℕ
  | 0, _ => 0
  | f + 1, n => if n = 0 then 0 else bitlen f (n / 2) + 1

/-- Drop the low `k` bits of the significand `m`, rounding to nearest with
ties to even, and compensate in the exponent. -/
def roundDyCore (m : ℤ) (e : ℤ) (k : ℕ) : F64v :=
  let a := m.natAbs
  let q := a / 2 ^ k
  let r := a % 2 ^ k
  let half := 2 ^ (k - 1)
  let q' := if r < half then q else if half < r then q + 1
            else if q % 2 = 0 then q else q + 1
  ⟨if m < 0 then -(q' : ℤ) else (q' : ℤ), e + k⟩

/-- Round the exact dyadic `m * 2 ^ e` to binary64 precision: 53 significant
bits, round to nearest, ties to even. -/
def roundDy (m : ℤ) (e : ℤ) : F64v :=
  if m = 0 then ⟨0, 0⟩
  else
    let b := bitlen 5000 m.natAbs
    if b ≤ 53 then ⟨m, e⟩ else roundDyCore m e (b - 53)

/-- The IEEE `<` comparison on finite doubles: exact comparison of the two
dyadic values. -/
def dlt (a b : F64v) : Bool :=
  if a.e ≤ b.e then decide (a.m < b.m * 2 ^ (b.e - a.e).toNat)
  else decide (a.m * 2 ^ (a.e - b.e).toNat < b.m)

/-- Binary64 addition: the exact dyadic sum, rounded. -/
def faddF (a b : F64v) : F64v :=
  if a.e ≤ b.e then roundDy (a.m + b.m * 2 ^ (b.e - a.e).toNat) a.e
  else roundDy (a.m * 2 ^ (a.e - b.e).toNat + b.m) b.e

/-- Binary64 subtraction. -/
def fsubF (a b : F64v) : F64v := faddF a ⟨-b.m, b.e⟩

/-- Binary64 multiplication: the exact dyadic product, rounded. -/
def fmulF (a b : F64v) : F64v := roundDy (a.m * b.m) (a.e + b.e)

/-- Binary64 reciprocal (`f64::recip`): the correctly rounded `1 / (m * 2^e)`.
The quotient is computed with two guard bits beyond 53, and the division
remainder serves as the sticky bit deciding exact-tie cases. -/
def frecipF (a : F64v) : F64v :=
  let n := a.m.natAbs
  let b := bitlen 5000 n
  let s := b + 54
  let q := 2 ^ s / n
  let r := 2 ^ s % n
  let bq := bitlen 5000 q
  let k := bq - 53
  let dropped := q % 2 ^ k
  let half := 2 ^ (k - 1)
  let q0 := q / 2 ^ k
  let q' := if dropped < half then q0
            else if half < dropped then q0 + 1
            else if r = 0 then (if q0 % 2 = 0 then q0 else q0 + 1) else q0 + 1
  ⟨if a.m < 0 then -(q' : ℤ) else (q' : ℤ), (k : ℤ) - (s : ℤ) - a.e⟩

/-- The exact rational value of a binary64 pair. -/
def F64v.toRat (a : F64v) : ℚ := (a.m : ℚ) * 2 ^ a.e

/-- The state of a `BernoulliRng` in the binary64 embedding: as `GenState`,
with the numeric fields at binary64 values. -/
structure GenF where
  p : F64v
  low : F64v
  high : F64v
  shift : ℕ
  bits : ℕ
  src : ℕ → ℕ
  pos : ℕ

/-- The state after `BernoulliRng::new` in the binary64 embedding. -/
def mkGenF (p : F64v) (src : ℕ → ℕ) : GenF :=
  { p := p, low := ⟨0, 0⟩, high := ⟨1, 0⟩, shift := 0, bits := 0, src := src, pos := 0 }

/-- `BernoulliRng::next_bit` in the binary64 embedding (the reservoir is
integer code, identical to `next_bit`). -/
def next_bitF (s : GenF) : Bool × GenF :=
  let s := if s.shift = 0 then
    { s with bits := s.src s.pos % 2 ^ 64, shift := 64, pos := s.pos + 1 }
  else s
  (s.bits % 2 == 1, { s with bits := s.bits / 2, shift := s.shift - 1 })

/-- The loop-local state of `next_u32` in the binary64 embedding. -/
structure LoopF where
  ret : ℕ
  i : ℕ
  high : F64v
  low : F64v
  gen : GenF

/-- The loop body of `next_u32` with binary64 arithmetic: same three-way
branch structure as `loopStep`, each `f64` operation rounded; `⟨1, -1⟩` is
the literal `0.5`. -/
def loopStepR (p pRecip pinvRecip : F64v) (st : LoopF) : LoopF :=
  if dlt st.high p then
    { st with ret := (st.ret * 2 + 1) % 2 ^ 32, i := st.i + 1,
              low := fmulF st.low pRecip, high := fmulF st.high pRecip }
  else if dlt p st.low then
    { st with ret := (st.ret * 2) % 2 ^ 32, i := st.i + 1,
              low := fmulF (fsubF st.low p) pinvRecip,
              high := fmulF (fsubF st.high p) pinvRecip }
  else
    let mid := fmulF ⟨1, -1⟩ (faddF st.low st.high)
    match next_bitF st.gen with
    | (true, g) => { st with low := mid, gen := g }
    | (false, g) => { st with high := mid, gen := g }

/-- The `while i != 32` loop in the binary64 embedding, with fuel. -/
def runLoopR (p pRecip pinvRecip : F64v) : ℕ → LoopF → Option LoopF
  | 0, st => if st.i = 32 then some st else none
  | fuel + 1, st =>
    if st.i = 32 then some st
    else runLoopR p pRecip pinvRecip fuel (loopStepR p pRecip pinvRecip st)

/-- `BernoulliRng::next_u32` in the binary64 embedding: reciprocals once per
call (`p.recip()` and `(1.0 - p).recip()`), then the loop, then persist. -/
def next_u32R (fuel : ℕ) (s : GenF) : Option (ℕ × GenF) :=
  match runLoopR s.p (frecipF s.p) (frecipF (fsubF ⟨1, 0⟩ s.p)) fuel
      { ret := 0, i := 0, high := s.high, low := s.low, gen := s } with
  | none => none
  | some st => some (st.ret, { st.gen with high := st.high, low := st.low })

/-- The probability `0.5 + 2 ^ (-53)`, the double one ulp above `0.5`; it is
strictly between 0 and 1, so construction accepts it. -/
def pF64 : F64v := ⟨2 ^ 52 + 1, -53⟩

/-- A source whose first 64-bit word is `1 + 2 ^ 52 + 2 ^ 53` and whose later
words are `0`: its bit stream (LSB first) is `1`, then 51 zeros, then `1`,
`1`, then zeros. -/
def collapseSrc : ℕ → ℕ := fun n => if n = 0 then 1 + 2 ^ 52 + 2 ^ 53 else 0

/-- A property preserved by every loop iteration holds at loop exit, and the
loop exits only with all 32 bits emitted. -/
theorem runLoop_some_inv {p pRecip pinvRecip : ℚ} (P : LoopSt → Prop)
    (hstep : ∀ st, st.i ≠ 32 → P st → P (loopStep p pRecip pinvRecip st)) :
    ∀ (fuel : ℕ) (st st' : LoopSt), P st →
      runLoop p pRecip pinvRecip fuel st = some st' → P st' ∧ st'.i = 32 := by
  intro fuel
  induction fuel with
  | zero =>
    intro st st' hP hrun
    by_cases hi : st.i = 32
    · simp only [runLoop, hi, if_true, Option.some.injEq] at hrun
      exact hrun ▸ ⟨hP, hi⟩
    · simp [runLoop, hi] at hrun
  | succ n ih =>
    intro st st' hP hrun
    by_cases hi : st.i = 32
    · simp only [runLoop, hi, if_true, Option.some.injEq] at hrun
      exact hrun ▸ ⟨hP, hi⟩
    · simp only [runLoop, hi, if_false] at hrun
      exact ih _ _ (hstep st hi hP) hrun

/-- A state property that is preserved by the loop body and incompatible
with having emitted 32 bits forces the loop to exhaust any amount of fuel. -/
theorem runLoop_none {p pRecip pinvRecip : ℚ} (P : LoopSt → Prop)
    (hstep : ∀ st, P st → P (loopStep p pRecip pinvRecip st))
    (hi : ∀ st, P st → st.i ≠ 32) :
    ∀ (fuel : ℕ) (st : LoopSt), P st → runLoop p pRecip pinvRecip fuel st = none := by
  intro fuel
  induction fuel with
  | zero => intro st hP; simp [runLoop, hi st hP]
  | succ n ih => intro st hP; simp [runLoop, hi st hP, ih _ (hstep st hP)]

/-- Once the loop finishes within some fuel bound, any larger bound gives
the same final state. -/
theorem runLoop_mono {p pRecip pinvRecip : ℚ} :
    ∀ (fuel fuel' : ℕ) (st st' : LoopSt), fuel ≤ fuel' →
      runLoop p pRecip pinvRecip fuel st = some st' →
      runLoop p pRecip pinvRecip fuel' st = some st' := by
  intro fuel
  induction fuel with
  | zero =>
    intro fuel' st st' _ hrun
    by_cases hi : st.i = 32
    · simp only [runLoop, hi, if_true, Option.some.injEq] at hrun
      subst hrun
      cases fuel' <;> simp [runLoop, hi]
    · simp [runLoop, hi] at hrun
  | succ n ih =>
    intro fuel' st st' hle hrun
    by_cases hi : st.i = 32
    · simp only [runLoop, hi, if_true, Option.some.injEq] at hrun
      subst hrun
      cases fuel' <;> simp [runLoop, hi]
    · simp only [runLoop, hi, if_false] at hrun
      obtain ⟨m, rfl⟩ : ∃ m, fuel' = m + 1 := ⟨fuel' - 1, by omega⟩
      simp only [runLoop, hi, if_false]
      exact ih m _ _ (by omega) hrun


/-- Claim C1: for every non-NaN probability `p`, `BernoulliRng::new` succeeds
exactly when `0.0 <= p <= 1.0` holds with the sign bit clear, and otherwise
fails with `InvalidProbability`: every sign-negative value (all negatives and
negative zero, detected via the sign bit) and every value greater than `1.0`
is rejected, and every `p` in `[0.0, 1.0]` inclusive (including exactly `0.0`
and exactly `1.0`) is accepted. -/
theorem new_validates (p : F64) (h : p.isNaN = false) :
    ((∃ g, BernoulliRng.new p = .ok g) ↔
      (F64.le F64.zero p = true ∧ F64.le p F64.one = true ∧ p.isSignNegative = false)) ∧
    (BernoulliRng.new p = .error .invalidProbability ↔
      ¬(F64.le F64.zero p = true ∧ F64.le p F64.one = true ∧ p.isSignNegative = false)) := by
  cases p with
  | nan b => simp [F64.isNaN] at h
  | inf b =>
    cases b <;>
      simp [BernoulliRng.new, F64.isSignNegative, F64.gt, F64.lt, F64.le, F64.zero, F64.one]
  | finite q nz =>
    by_cases hq : q = 0
    · subst hq
      cases nz <;>
        (simp [BernoulliRng.new, F64.isSignNegative, F64.gt, F64.lt, F64.le, F64.zero,
          F64.one]; try norm_num)
    · by_cases hneg : q < 0
      · have h1 : ¬ (0 : ℚ) ≤ q := not_le.mpr hneg
        simp [BernoulliRng.new, F64.isSignNegative, F64.gt, F64.lt, F64.le, F64.zero, F64.one,
          hq, hneg, h1]
      · have h0 : (0 : ℚ) ≤ q := not_lt.mp hneg
        by_cases hgt : 1 < q
        · have h1 : ¬ q ≤ 1 := not_le.mpr hgt
          simp [BernoulliRng.new, F64.isSignNegative, F64.gt, F64.lt, F64.le, F64.zero, F64.one,
            hq, hneg, hgt, h0, h1]
        · have h1 : q ≤ 1 := not_lt.mp hgt
          simp [BernoulliRng.new, F64.isSignNegative, F64.gt, F64.lt, F64.le, F64.zero, F64.one,
            hq, hneg, hgt, h0, h1]

/-- Witness for C1 at the concrete probability `0.75`. -/
theorem new_validates_witness :
    (F64.finite (3/4) false).isNaN = false ∧
    (((∃ g, BernoulliRng.new (F64.finite (3/4) false) = .ok g) ↔
      (F64.le F64.zero (F64.finite (3/4) false) = true ∧
       F64.le (F64.finite (3/4) false) F64.one = true ∧
       (F64.finite (3/4) false).isSignNegative = false)) ∧
    (BernoulliRng.new (F64.finite (3/4) false) = .error .invalidProbability ↔
      ¬(F64.le F64.zero (F64.finite (3/4) false) = true ∧
        F64.le (F64.finite (3/4) false) F64.one = true ∧
        (F64.finite (3/4) false).isSignNegative = false))) :=
  ⟨by simp [F64.isNaN], new_validates (F64.finite (3/4) false) (by simp [F64.isNaN])⟩

/-- Claim C10: a NaN probability with a positive sign bit is accepted by
`BernoulliRng::new` (NaN is not sign-negative, and `NaN > 1.0` is false),
even though NaN is not in `[0.0, 1.0]` under the IEEE comparisons. -/
theorem nan_accepted :
    BernoulliRng.new (F64.nan false) =
      .ok { p := F64.nan false, low := F64.zero, high := F64.one, shift := 0, bits := 0 } ∧
    F64.le F64.zero (F64.nan false) = false ∧
    F64.le (F64.nan false) F64.one = false ∧
    (F64.nan false).isSignNegative = false ∧
    F64.gt (F64.nan false) F64.one = false := by
  refine ⟨?_, ?_, ?_, ?_, ?_⟩ <;>
    simp [BernoulliRng.new, F64.isSignNegative, F64.gt, F64.lt, F64.le, F64.zero, F64.one]

/-- One loop iteration with `0 < p < 1` preserves the working-interval
invariant `0 ≤ low < high ≤ 1`. -/
theorem loopStep_LoopInv (p : ℚ) (h0 : 0 < p) (st : LoopSt)
    (h : LoopInv st) : LoopInv (loopStep p p⁻¹ (1 - p)⁻¹ st) := by
  obtain ⟨hl0, hlh, hh1⟩ := h
  by_cases hhp : st.high < p
  · refine ⟨?_, ?_, ?_⟩ <;> simp only [loopStep, hhp, if_true, LoopInv]
    · exact mul_nonneg hl0 (le_of_lt (inv_pos.mpr h0))
    · exact mul_lt_mul_of_pos_right hlh (inv_pos.mpr h0)
    · rw [← div_eq_mul_inv]
      exact le_of_lt ((div_lt_one h0).mpr hhp)
  · by_cases hlp : st.low > p
    · have h1p : (0:ℚ) < 1 - p := by linarith
      refine ⟨?_, ?_, ?_⟩ <;> simp only [loopStep, hhp, hlp, if_true, if_false, LoopInv]
      · exact le_of_lt (mul_pos (by linarith) (inv_pos.mpr h1p))
      · exact mul_lt_mul_of_pos_right (by linarith) (inv_pos.mpr h1p)
      · rw [← div_eq_mul_inv]
        exact (div_le_one h1p).mpr (by linarith)
    · rcases hnb : next_bit st.gen with ⟨b, g⟩
      cases b <;>
        simp only [loopStep, hhp, hlp, if_false, hnb, LoopInv] <;>
        refine ⟨by linarith, by linarith, by linarith⟩

/-- Idealized-semantics counterpart of the interval invariant: under the
exact real-number reading of the interval arithmetic (the specification's
data model), `0 ≤ low < high ≤ 1` holds after construction and is restored
after every completed call, for `0 < p < 1` and every source.  The
floating-point program does not satisfy this — rounding can collapse the
midpoint onto an endpoint, see the binary64 evaluation at the end of this
file — so this records only what the exact model guarantees: the collapse
is purely a rounding artifact. -/
theorem interval_invariant (p : ℚ) (src : ℕ → ℕ) (s s' : GenState) (fuel v : ℕ)
    (h0 : 0 < p) (_h1 : p < 1) (hps : s.p = p) (hInv : IntervalInv s)
    (hrun : next_u32 fuel s = some (v, s')) :
    IntervalInv (mkGen p src) ∧ IntervalInv s' := by
  constructor
  · exact ⟨le_refl 0, by norm_num [mkGen], by norm_num [mkGen]⟩
  · unfold next_u32 at hrun
    rcases hrl : runLoop s.p s.p⁻¹ (1 - s.p)⁻¹ fuel
        { ret := 0, i := 0, high := s.high, low := s.low, gen := s } with _ | st
    · rw [hrl] at hrun; exact absurd hrun (by simp)
    · rw [hrl] at hrun
      simp only [Option.some.injEq, Prod.mk.injEq] at hrun
      obtain ⟨hv, hs'⟩ := hrun
      rw [hps] at hrl
      have := runLoop_some_inv LoopInv
        (fun st hi hP => loopStep_LoopInv p h0 st hP) fuel _ st
        ⟨hInv.1, hInv.2.1, hInv.2.2⟩ hrl
      obtain ⟨⟨a, b, c⟩, _⟩ := this
      rw [← hs']
      exact ⟨a, b, c⟩

/-- Instantiation of the exact-model invariant: the generator with `p = 1/2`
fed all-ones uniform words completes a call within 96 loop iterations and
the invariant holds of the persisted interval. -/
theorem interval_invariant_witness :
    (0 : ℚ) < 1/2 ∧ (1/2 : ℚ) < 1 ∧ (mkGen (1/2) onesSrc).p = 1/2 ∧
    IntervalInv (mkGen (1/2) onesSrc) ∧
    next_u32 96 (mkGen (1/2) onesSrc) = some (0, c2FinSt) ∧
    (IntervalInv (mkGen (1/2) onesSrc) ∧ IntervalInv c2FinSt) := by
  have hrun : next_u32 96 (mkGen (1/2) onesSrc) = some (0, c2FinSt) := by
    norm_num [next_u32, runLoop, loopStep, next_bit, mkGen, onesSrc, c2FinSt]
  refine ⟨by norm_num, by norm_num, rfl,
    ⟨by norm_num [mkGen], by norm_num [mkGen], by norm_num [mkGen]⟩, hrun, ?_⟩
  exact interval_invariant (1/2) onesSrc (mkGen (1/2) onesSrc) c2FinSt 96 0
    (by norm_num) (by norm_num) rfl
    ⟨by norm_num [mkGen], by norm_num [mkGen], by norm_num [mkGen]⟩ hrun

/-- Claim C3: each iteration of the loop in `next_u32` performs exactly the
specification's three-way step: equal to `specStep` (success branch with
rescale by `1/p`, failure branch with rescale by `1/(1-p)`, straddle branch
halving via one fresh bit), the fall-through guard is exactly the straddle
condition `low ≤ p ≤ high`, and the two emitting branches leave the
generator (hence the entropy reservoir and the underlying source)
untouched. -/
theorem step_matches_spec (p : ℚ) (st : LoopSt) :
    loopStep p p⁻¹ (1 - p)⁻¹ st = specStep p st ∧
    ((¬ st.high < p ∧ ¬ st.low > p) ↔ (st.low ≤ p ∧ p ≤ st.high)) ∧
    (st.high < p → (loopStep p p⁻¹ (1 - p)⁻¹ st).gen = st.gen) ∧
    (¬ st.high < p → st.low > p → (loopStep p p⁻¹ (1 - p)⁻¹ st).gen = st.gen) := by
  refine ⟨?_, ?_, ?_, ?_⟩
  · unfold loopStep specStep
    simp [one_div]
  · constructor
    · rintro ⟨a, b⟩; exact ⟨not_lt.mp b, not_lt.mp a⟩
    · rintro ⟨a, b⟩; exact ⟨not_lt.mpr b, not_lt.mpr a⟩
  · intro h; simp [loopStep, h]
  · intro h h'; simp [loopStep, h, h']

/-- Witness for C3 at a concrete loop state. -/
theorem step_matches_spec_witness :
    loopStep (1/2) ((1/2 : ℚ))⁻¹ (1 - (1/2 : ℚ))⁻¹ ⟨0, 0, 1, 0, mkGen (1/2) zeroSrc⟩ =
      specStep (1/2) ⟨0, 0, 1, 0, mkGen (1/2) zeroSrc⟩ ∧
    ((¬ (⟨0, 0, 1, 0, mkGen (1/2) zeroSrc⟩ : LoopSt).high < 1/2 ∧
        ¬ (⟨0, 0, 1, 0, mkGen (1/2) zeroSrc⟩ : LoopSt).low > 1/2) ↔
      ((⟨0, 0, 1, 0, mkGen (1/2) zeroSrc⟩ : LoopSt).low ≤ 1/2 ∧
        1/2 ≤ (⟨0, 0, 1, 0, mkGen (1/2) zeroSrc⟩ : LoopSt).high)) ∧
    ((⟨0, 0, 1, 0, mkGen (1/2) zeroSrc⟩ : LoopSt).high < 1/2 →
      (loopStep (1/2) ((1/2 : ℚ))⁻¹ (1 - (1/2 : ℚ))⁻¹
        ⟨0, 0, 1, 0, mkGen (1/2) zeroSrc⟩).gen = mkGen (1/2) zeroSrc) ∧
    (¬ (⟨0, 0, 1, 0, mkGen (1/2) zeroSrc⟩ : LoopSt).high < 1/2 →
      (⟨0, 0, 1, 0, mkGen (1/2) zeroSrc⟩ : LoopSt).low > 1/2 →
      (loopStep (1/2) ((1/2 : ℚ))⁻¹ (1 - (1/2 : ℚ))⁻¹
        ⟨0, 0, 1, 0, mkGen (1/2) zeroSrc⟩).gen = mkGen (1/2) zeroSrc) :=
  step_matches_spec (1/2) ⟨0, 0, 1, 0, mkGen (1/2) zeroSrc⟩

/-- Claim C7: the generator is a deterministic function of `p` and the
consumed uniform words: two instances constructed with the same `p` and fed
pointwise-identical streams of 64-bit words produce identical sequences of
output words. -/
theorem deterministic (p : ℚ) (src1 src2 : ℕ → ℕ) (h : ∀ i, src1 i = src2 i)
    (n fuel : ℕ) :
    outWords fuel n (mkGen p src1) = outWords fuel n (mkGen p src2) := by
  have hs : src1 = src2 := funext h
  rw [hs]

/-- Witness for C7 at two syntactically different but pointwise-equal
constant sources. -/
theorem deterministic_witness :
    (∀ i, dupSrcA i = dupSrcB i) ∧
    outWords 40 2 (mkGen (1/2) dupSrcA) = outWords 40 2 (mkGen (1/2) dupSrcB) :=
  ⟨fun i => by simp [dupSrcA, dupSrcB],
   deterministic (1/2) dupSrcA dupSrcB (fun i => by simp [dupSrcA, dupSrcB]) 2 40⟩

/-- Claim C8: `next_bit` behaves as the specification's reservoir
submechanism: when the remaining-bit count is zero it draws one fresh 64-bit
word from the source and resets the count to 64, otherwise it leaves the
reservoir alone; it then returns the least-significant buffered bit, shifts
the buffer right by one and decrements the count; it has no error path, and
the count stays in the range 0 to 64. -/
theorem next_bit_reservoir (s : GenState) (h : s.shift ≤ 64) :
    next_bit s = reservoirConsume (reservoirRefill s) ∧
    (s.shift = 0 → reservoirRefill s =
      { s with bits := s.src s.pos % 2 ^ 64, shift := 64, pos := s.pos + 1 }) ∧
    (s.shift ≠ 0 → reservoirRefill s = s) ∧
    (next_bit s).2.shift ≤ 64 := by
  refine ⟨?_, ?_, ?_, ?_⟩
  · by_cases hs : s.shift = 0 <;> simp [next_bit, reservoirConsume, reservoirRefill, hs]
  · intro hs; simp [reservoirRefill, hs]
  · intro hs; simp [reservoirRefill, hs]
  · by_cases hs : s.shift = 0 <;> (simp [next_bit, hs]; try omega)

/-- Witness for C8 at a freshly constructed generator (empty reservoir). -/
theorem next_bit_reservoir_witness :
    (mkGen (1/2) oneWordSrc).shift ≤ 64 ∧
    (next_bit (mkGen (1/2) oneWordSrc) =
      reservoirConsume (reservoirRefill (mkGen (1/2) oneWordSrc)) ∧
    ((mkGen (1/2) oneWordSrc).shift = 0 → reservoirRefill (mkGen (1/2) oneWordSrc) =
      { mkGen (1/2) oneWordSrc with
          bits := (mkGen (1/2) oneWordSrc).src (mkGen (1/2) oneWordSrc).pos % 2 ^ 64,
          shift := 64, pos := (mkGen (1/2) oneWordSrc).pos + 1 }) ∧
    ((mkGen (1/2) oneWordSrc).shift ≠ 0 → reservoirRefill (mkGen (1/2) oneWordSrc) =
      mkGen (1/2) oneWordSrc) ∧
    (next_bit (mkGen (1/2) oneWordSrc)).2.shift ≤ 64) :=
  ⟨by norm_num [mkGen], next_bit_reservoir (mkGen (1/2) oneWordSrc) (by norm_num [mkGen])⟩

/-- Erasing the instrumentation commutes with one loop iteration. -/
theorem loopStepT_eraseT (p pRecip pinvRecip : ℚ) (st : LoopT) :
    eraseT (loopStepT p pRecip pinvRecip st) = loopStep p pRecip pinvRecip (eraseT st) := by
  by_cases h1 : st.high < p
  · simp [loopStepT, loopStep, eraseT, h1]
  · by_cases h2 : st.low > p
    · simp [loopStepT, loopStep, eraseT, h1, h2]
    · rcases hnb : next_bit st.gen with ⟨b, g⟩
      cases b <;> simp [loopStepT, loopStep, eraseT, h1, h2, hnb]

/-- Erasing the instrumentation commutes with the whole loop. -/
theorem runLoopT_eraseT (p pRecip pinvRecip : ℚ) :
    ∀ (fuel : ℕ) (st : LoopT),
      (runLoopT p pRecip pinvRecip fuel st).map eraseT =
        runLoop p pRecip pinvRecip fuel (eraseT st) := by
  intro fuel
  induction fuel with
  | zero =>
    intro st
    by_cases hi : st.i = 32 <;> simp [runLoopT, runLoop, eraseT, hi]
  | succ n ih =>
    intro st
    by_cases hi : st.i = 32
    · simp [runLoopT, runLoop, eraseT, hi]
    · have he : (eraseT st).i = st.i := rfl
      simp only [runLoopT, runLoop, he, hi, if_false]
      rw [ih, loopStepT_eraseT]

/-- Instrumented analogue of `runLoop_some_inv`. -/
theorem runLoopT_some_inv {p pRecip pinvRecip : ℚ} (P : LoopT → Prop)
    (hstep : ∀ st, st.i ≠ 32 → P st → P (loopStepT p pRecip pinvRecip st)) :
    ∀ (fuel : ℕ) (st st' : LoopT), P st →
      runLoopT p pRecip pinvRecip fuel st = some st' → P st' ∧ st'.i = 32 := by
  intro fuel
  induction fuel with
  | zero =>
    intro st st' hP hrun
    by_cases hi : st.i = 32
    · simp only [runLoopT, hi, if_true, Option.some.injEq] at hrun
      exact hrun ▸ ⟨hP, hi⟩
    · simp [runLoopT, hi] at hrun
  | succ n ih =>
    intro st st' hP hrun
    by_cases hi : st.i = 32
    · simp only [runLoopT, hi, if_true, Option.some.injEq] at hrun
      exact hrun ▸ ⟨hP, hi⟩
    · simp only [runLoopT, hi, if_false] at hrun
      exact ih _ _ (hstep st hi hP) hrun

/-- Each loop iteration keeps `ret` equal to the packing fold of the bits
emitted so far, and `i` equal to their number. -/
theorem loopStepT_pack (p pRecip pinvRecip : ℚ) (st : LoopT)
    (h : st.ret = packFold st.emitted ∧ st.i = st.emitted.length) :
    (loopStepT p pRecip pinvRecip st).ret =
        packFold (loopStepT p pRecip pinvRecip st).emitted ∧
      (loopStepT p pRecip pinvRecip st).i =
        (loopStepT p pRecip pinvRecip st).emitted.length := by
  obtain ⟨hr, hi⟩ := h
  by_cases h1 : st.high < p
  · simp [loopStepT, h1, packFold, List.foldl_append, hr, hi]
  · by_cases h2 : st.low > p
    · simp [loopStepT, h1, h2, packFold, List.foldl_append, hr, hi]
    · rcases hnb : next_bit st.gen with ⟨b, g⟩
      cases b <;> simp [loopStepT, h1, h2, hnb, packFold, hr, hi]

/-- Claim C4: every call to `next_u32` that returns emits exactly 32
accepted bits and packs them most-significant-first in output-construction
order: the returned word is the fold of the emitted bits, in emission order,
by `result = result << 1 | bit`. -/
theorem packs_msb_first (s : GenState) (fuel v : ℕ) (s' : GenState)
    (hrun : next_u32 fuel s = some (v, s')) :
    ∃ bs : List ℕ, next_u32T fuel s = some (v, bs, s') ∧ bs.length = 32 ∧
      v = packFold bs := by
  have hinit :
      eraseT { ret := 0, i := 0, high := s.high, low := s.low, gen := s, emitted := [] } =
      ({ ret := 0, i := 0, high := s.high, low := s.low, gen := s } : LoopSt) := rfl
  have herase := runLoopT_eraseT s.p s.p⁻¹ (1 - s.p)⁻¹ fuel
    { ret := 0, i := 0, high := s.high, low := s.low, gen := s, emitted := [] }
  rw [hinit] at herase
  rcases hT : runLoopT s.p s.p⁻¹ (1 - s.p)⁻¹ fuel
      { ret := 0, i := 0, high := s.high, low := s.low, gen := s, emitted := [] }
    with _ | stT
  · rw [hT] at herase
    unfold next_u32 at hrun
    rw [← herase] at hrun
    simp at hrun
  · rw [hT] at herase
    unfold next_u32 at hrun
    rw [← herase] at hrun
    simp only [Option.map_some, eraseT, Option.some.injEq, Prod.mk.injEq] at hrun
    obtain ⟨hv, hs'⟩ := hrun
    have hinv := runLoopT_some_inv
      (fun st => st.ret = packFold st.emitted ∧ st.i = st.emitted.length)
      (fun st _ hP => loopStepT_pack s.p s.p⁻¹ (1 - s.p)⁻¹ st hP)
      fuel _ stT (by simp [packFold]) hT
    obtain ⟨⟨hpack, hlen⟩, hi32⟩ := hinv
    refine ⟨stT.emitted, ?_, ?_, ?_⟩
    · unfold next_u32T
      rw [hT]
      rfl
    · omega
    · exact hpack

/-- Witness for C4: a completed call on the degenerate generator `p = 0`. -/
theorem packs_msb_first_witness :
    next_u32 33 (mkGen 0 oneWordSrc) = some (0, degSt0) ∧
    (∃ bs : List ℕ, next_u32T 33 (mkGen 0 oneWordSrc) = some (0, bs, degSt0) ∧
      bs.length = 32 ∧ (0 : ℕ) = packFold bs) := by
  have hrun : next_u32 33 (mkGen 0 oneWordSrc) = some (0, degSt0) := by
    norm_num [next_u32, runLoop, loopStep, next_bit, mkGen, oneWordSrc, degSt0]
  exact ⟨hrun, packs_msb_first (mkGen 0 oneWordSrc) 33 0 degSt0 hrun⟩

/-- Destructuring of a completed `next_u32` call into its loop run. -/
theorem next_u32_elim (s : GenState) (fuel v : ℕ) (s' : GenState)
    (hrun : next_u32 fuel s = some (v, s')) :
    ∃ st : LoopSt, runLoop s.p s.p⁻¹ (1 - s.p)⁻¹ fuel
        { ret := 0, i := 0, high := s.high, low := s.low, gen := s } = some st ∧
      v = st.ret ∧ s' = { st.gen with high := st.high, low := st.low } := by
  unfold next_u32 at hrun
  rcases hrl : runLoop s.p s.p⁻¹ (1 - s.p)⁻¹ fuel
      { ret := 0, i := 0, high := s.high, low := s.low, gen := s } with _ | st
  · rw [hrl] at hrun; simp at hrun
  · rw [hrl] at hrun
    simp only [Option.some.injEq, Prod.mk.injEq] at hrun
    exact ⟨st, rfl, hrun.1.symm, hrun.2.symm⟩

/-- Amended claim C5: for a generator with `p = 0.0` every call to `next_u32`
that completes returns 0, and for `p = 1.0` every completing call returns
`0xFFFFFFFF`, for every underlying uniform source, with the persisted
interval staying in the region that forces the same degenerate word on
later calls; the reciprocals `1/p` and `1/(1-p)` cause no failure because
the branches using them never fire.  (Termination for every source, which
the original claim also asserts, is refuted by the non-termination
counterexample for this claim.) -/
theorem degenerate_words :
    (∀ (s : GenState) (fuel v : ℕ) (s' : GenState), s.p = 0 → 0 ≤ s.low → 0 ≤ s.high →
      next_u32 fuel s = some (v, s') → v = 0 ∧ 0 ≤ s'.low ∧ 0 ≤ s'.high) ∧
    (∀ (s : GenState) (fuel v : ℕ) (s' : GenState), s.p = 1 → s.low ≤ 1 → s.high ≤ 1 →
      next_u32 fuel s = some (v, s') → v = 4294967295 ∧ s'.low ≤ 1 ∧ s'.high ≤ 1) := by
  constructor
  · intro s fuel v s' hp hl hh hrun
    obtain ⟨st, hrl, hv, hs'⟩ := next_u32_elim s fuel v s' hrun
    rw [hp] at hrl
    have hinv := runLoop_some_inv
      (fun st : LoopSt => st.ret = 0 ∧ 0 ≤ st.low ∧ 0 ≤ st.high)
      ?_ fuel _ st ⟨rfl, hl, hh⟩ hrl
    · obtain ⟨⟨hr, hl', hh'⟩, _⟩ := hinv
      subst hv; subst hs'
      exact ⟨hr, by simpa using hl', by simpa using hh'⟩
    · intro st _ hP
      obtain ⟨hr, hl0, hh0⟩ := hP
      have hng : ¬ st.high < 0 := not_lt.mpr hh0
      by_cases hlp : st.low > 0
      · refine ⟨?_, ?_, ?_⟩ <;> simp [loopStep, hng, hlp, hr]
        · linarith
        · linarith
      · rcases hnb : next_bit st.gen with ⟨b, g⟩
        cases b <;> refine ⟨?_, ?_, ?_⟩ <;>
          simp [loopStep, hng, hlp, hnb, hr] <;> linarith
  · intro s fuel v s' hp hl hh hrun
    obtain ⟨st, hrl, hv, hs'⟩ := next_u32_elim s fuel v s' hrun
    rw [hp] at hrl
    have hinv := runLoop_some_inv
      (fun st : LoopSt => st.ret = 2 ^ st.i - 1 ∧ st.i ≤ 32 ∧ st.low ≤ 1 ∧ st.high ≤ 1)
      ?_ fuel _ st ⟨by norm_num, by norm_num, hl, hh⟩ hrl
    · obtain ⟨⟨hr, _, hl', hh'⟩, hi32⟩ := hinv
      subst hv; subst hs'
      refine ⟨by rw [hr, hi32]; norm_num, by simpa using hl', by simpa using hh'⟩
    · intro st hi hP
      obtain ⟨hr, hile, hl1, hh1⟩ := hP
      have hnl : ¬ st.low > 1 := not_lt.mpr hl1
      by_cases hhp : st.high < 1
      · have h1 : (1:ℕ) ≤ 2 ^ st.i := Nat.one_le_two_pow
        have h3 : 2 ^ (st.i + 1) ≤ 2 ^ 32 := Nat.pow_le_pow_right (by norm_num) (by omega)
        have h2 : 2 ^ (st.i + 1) = 2 * 2 ^ st.i := by rw [pow_succ]; ring
        refine ⟨?_, ?_, ?_, ?_⟩ <;> simp [loopStep, hhp, hr]
        · rw [show (2 ^ st.i - 1) * 2 + 1 = 2 ^ (st.i + 1) - 1 by omega]
          exact Nat.mod_eq_of_lt (by omega)
        · omega
        · exact hl1
        · exact le_of_lt hhp
      · rcases hnb : next_bit st.gen with ⟨b, g⟩
        cases b <;> refine ⟨?_, ?_, ?_, ?_⟩ <;>
          simp [loopStep, hhp, hnl, hnb, hr, hile] <;> linarith

/-- With `p = 0.0` and the all-zeros uniform source, the loop of `next_u32`
is still running after any number of iterations. -/
theorem nontermination_zero_aux :
    ∀ fuel : ℕ, next_u32 fuel (mkGen 0 zeroSrc) = none := by
  intro fuel
  have hstep : ∀ st : LoopSt,
      (st.i = 0 ∧ st.low = 0 ∧ 0 < st.high ∧ st.gen.bits = 0 ∧ st.gen.src = zeroSrc) →
      ((loopStep 0 (0:ℚ)⁻¹ (1 - (0:ℚ))⁻¹ st).i = 0 ∧
        (loopStep 0 (0:ℚ)⁻¹ (1 - (0:ℚ))⁻¹ st).low = 0 ∧
        0 < (loopStep 0 (0:ℚ)⁻¹ (1 - (0:ℚ))⁻¹ st).high ∧
        (loopStep 0 (0:ℚ)⁻¹ (1 - (0:ℚ))⁻¹ st).gen.bits = 0 ∧
        (loopStep 0 (0:ℚ)⁻¹ (1 - (0:ℚ))⁻¹ st).gen.src = zeroSrc) := by
    intro st ⟨hi, hl, hh, hb, hsrc⟩
    have hng : ¬ st.high < 0 := by linarith
    have hnl : ¬ st.low > 0 := by simp [hl]
    have hnb : next_bit st.gen = (false,
        { st.gen with
            bits := 0,
            shift := (if st.gen.shift = 0 then 64 else st.gen.shift) - 1,
            pos := if st.gen.shift = 0 then st.gen.pos + 1 else st.gen.pos }) := by
      by_cases hs : st.gen.shift = 0 <;> simp [next_bit, hs, hb, hsrc, zeroSrc]
    refine ⟨?_, ?_, ?_, ?_, ?_⟩ <;>
      (simp [loopStep, hng, hnl, hnb, hi, hl, hsrc]; try linarith)
  have hP0 : ((⟨0, 0, 1, 0, mkGen 0 zeroSrc⟩ : LoopSt).i = 0 ∧
      (⟨0, 0, 1, 0, mkGen 0 zeroSrc⟩ : LoopSt).low = 0 ∧
      0 < (⟨0, 0, 1, 0, mkGen 0 zeroSrc⟩ : LoopSt).high ∧
      (⟨0, 0, 1, 0, mkGen 0 zeroSrc⟩ : LoopSt).gen.bits = 0 ∧
      (⟨0, 0, 1, 0, mkGen 0 zeroSrc⟩ : LoopSt).gen.src = zeroSrc) := by
    refine ⟨rfl, rfl, by norm_num, rfl, rfl⟩
  have hrl := runLoop_none
    (fun st : LoopSt =>
      st.i = 0 ∧ st.low = 0 ∧ 0 < st.high ∧ st.gen.bits = 0 ∧ st.gen.src = zeroSrc)
    hstep (fun st hP => by rw [hP.1]; omega) fuel _ hP0
  unfold next_u32
  rw [show (mkGen 0 zeroSrc).p = 0 from rfl,
    show (mkGen 0 zeroSrc).high = 1 from rfl, show (mkGen 0 zeroSrc).low = 0 from rfl]
  rw [hrl]

/-- Counterexample to C5 as stated: with `p = 0.0` and the all-zeros uniform
source, no call to `next_u32` ever completes (the interval keeps straddling
`p = 0` with `low = 0`, halving forever), so a call does not terminate for
every underlying uniform source and entropy consumption per bit is
unbounded. -/
theorem degenerate_nontermination :
    ¬ ∃ (fuel v : ℕ) (s' : GenState),
        next_u32 fuel (mkGen 0 zeroSrc) = some (v, s') := by
  rintro ⟨fuel, v, s', h⟩
  rw [nontermination_zero_aux fuel] at h
  exact absurd h (by simp)

/-- Witness for the amended C5: with a source that supplies a `1` bit, the
`p = 0` generator completes a call with word 0, and with a source that
supplies a `0` bit, the `p = 1` generator completes a call with word
`0xFFFFFFFF`. -/
theorem degenerate_words_witness :
    ((mkGen 0 oneWordSrc).p = 0 ∧ (0:ℚ) ≤ (mkGen 0 oneWordSrc).low ∧
      (0:ℚ) ≤ (mkGen 0 oneWordSrc).high ∧
      next_u32 33 (mkGen 0 oneWordSrc) = some (0, degSt0) ∧
      ((0:ℕ) = 0 ∧ (0:ℚ) ≤ degSt0.low ∧ (0:ℚ) ≤ degSt0.high)) ∧
    ((mkGen 1 zeroSrc).p = 1 ∧ (mkGen 1 zeroSrc).low ≤ 1 ∧ (mkGen 1 zeroSrc).high ≤ 1 ∧
      next_u32 33 (mkGen 1 zeroSrc) = some (4294967295, degSt1) ∧
      ((4294967295:ℕ) = 4294967295 ∧ degSt1.low ≤ 1 ∧ degSt1.high ≤ 1)) := by
  have hrun0 : next_u32 33 (mkGen 0 oneWordSrc) = some (0, degSt0) := by
    norm_num [next_u32, runLoop, loopStep, next_bit, mkGen, oneWordSrc, degSt0]
  have hb01 : ((0:ℕ) == 1) = false := rfl
  have hrun1 : next_u32 33 (mkGen 1 zeroSrc) = some (4294967295, degSt1) := by
    norm_num [next_u32, runLoop, loopStep, next_bit, mkGen, zeroSrc, degSt1, hb01]
  refine ⟨⟨rfl, by norm_num [mkGen], by norm_num [mkGen], hrun0, ?_⟩,
          ⟨rfl, by norm_num [mkGen], by norm_num [mkGen], hrun1, ?_⟩⟩
  · exact degenerate_words.1 (mkGen 0 oneWordSrc) 33 0 degSt0 rfl
      (by norm_num [mkGen]) (by norm_num [mkGen]) hrun0
  · exact degenerate_words.2 (mkGen 1 zeroSrc) 33 4294967295 degSt1 rfl
      (by norm_num [mkGen]) (by norm_num [mkGen]) hrun1

/-- With `p = 1/2` and the bit stream `1, 0, 0, 0, ...`, the loop of
`next_u32` is still running after any number of iterations. -/
theorem nontermination_half_aux :
    ∀ fuel : ℕ, next_u32 fuel (mkGen (1/2) altSrc) = none := by
  have hstep : ∀ st : LoopSt,
      (st.i = 0 ∧ st.low = 1/2 ∧ 1/2 < st.high ∧ st.high ≤ 1 ∧
        st.gen.bits = 0 ∧ st.gen.src = altSrc ∧ 1 ≤ st.gen.pos) →
      (let st' := loopStep (1/2) ((1/2 : ℚ))⁻¹ (1 - (1/2 : ℚ))⁻¹ st
       st'.i = 0 ∧ st'.low = 1/2 ∧ 1/2 < st'.high ∧ st'.high ≤ 1 ∧
        st'.gen.bits = 0 ∧ st'.gen.src = altSrc ∧ 1 ≤ st'.gen.pos) := by
    intro st ⟨hi, hl, hh1, hh2, hb, hsrc, hpos⟩
    have hng : ¬ st.high < 1/2 := by linarith
    have hnl : ¬ st.low > 1/2 := by simp [hl]
    have hsv : st.gen.src st.gen.pos = 0 := by
      rw [hsrc]; unfold altSrc; rw [if_neg (by omega)]
    have hnb : next_bit st.gen = (false,
        { st.gen with
            bits := 0,
            shift := (if st.gen.shift = 0 then 64 else st.gen.shift) - 1,
            pos := if st.gen.shift = 0 then st.gen.pos + 1 else st.gen.pos }) := by
      by_cases hs : st.gen.shift = 0 <;> simp [next_bit, hs, hb, hsv]
    unfold loopStep
    rw [if_neg hng, if_neg hnl, hnb]
    refine ⟨?_, ?_, ?_, ?_, ?_, ?_, ?_⟩
    · exact hi
    · exact hl
    · rw [hl]; linarith
    · rw [hl]; linarith
    · rfl
    · exact hsrc
    · simp only []
      split <;> omega
  intro fuel
  cases fuel with
  | zero => simp [next_u32, runLoop]
  | succ n =>
    unfold next_u32
    have hpeel : runLoop (mkGen (1/2) altSrc).p ((mkGen (1/2) altSrc).p)⁻¹
        (1 - (mkGen (1/2) altSrc).p)⁻¹ (n + 1)
        { ret := 0, i := 0, high := (mkGen (1/2) altSrc).high,
          low := (mkGen (1/2) altSrc).low, gen := mkGen (1/2) altSrc } =
        runLoop (1/2) ((1/2 : ℚ))⁻¹ (1 - (1/2 : ℚ))⁻¹ n
        { ret := 0, i := 0, high := 1, low := 1/2,
          gen := { p := 1/2, low := 0, high := 1, shift := 63, bits := 0,
                   src := altSrc, pos := 1 } } := by
      rw [show (mkGen (1/2) altSrc).p = 1/2 from rfl,
        show (mkGen (1/2) altSrc).high = 1 from rfl,
        show (mkGen (1/2) altSrc).low = 0 from rfl]
      rw [runLoop]
      norm_num [loopStep, next_bit, mkGen, altSrc]
    rw [hpeel]
    rw [runLoop_none _ hstep (fun st hP => by rw [hP.1]; omega) n _
      ⟨rfl, rfl, by norm_num, by norm_num, rfl, rfl, by norm_num⟩]

/-- Counterexample to C9 as stated: with the accepted probability `p = 1/2`
and the response sequence whose bits are `1, 0, 0, 0, ...` (first word `1`,
then zero words forever), no call to `next_u32` ever completes: the working
interval pins `low = 1/2` and keeps straddling `p` forever. -/
theorem loop_nontermination :
    ¬ ∃ (fuel v : ℕ) (s' : GenState),
        next_u32 fuel (mkGen (1/2) altSrc) = some (v, s') := by
  rintro ⟨fuel, v, s', h⟩
  rw [nontermination_half_aux fuel] at h
  exact absurd h (by simp)

/-- Amended claim C9: `next_u32` has no error path — whenever its loop
finishes within some fuel bound it returns a packed word and updated state,
and the result is stable under any larger bound (the fuel is an artifact of
the embedding, not a failure mode); construction-time validation remains
the program's only failure point.  (Termination for every response
sequence, which the original claim also asserts, is refuted by the
non-termination counterexample for this claim.) -/
theorem next_u32_mono (s : GenState) (fuel fuel' v : ℕ) (s' : GenState)
    (hle : fuel ≤ fuel') (h : next_u32 fuel s = some (v, s')) :
    next_u32 fuel' s = some (v, s') := by
  obtain ⟨st, hrl, hv, hs'⟩ := next_u32_elim s fuel v s' h
  have := runLoop_mono fuel fuel' _ st hle hrl
  unfold next_u32
  rw [this, hv, hs']

/-- Witness for the amended C9: a call that completes in 33 iterations
returns the same word and state at fuel 40. -/
theorem next_u32_mono_witness :
    33 ≤ 40 ∧ next_u32 33 (mkGen 0 oneWordSrc) = some (0, degSt0) ∧
    next_u32 40 (mkGen 0 oneWordSrc) = some (0, degSt0) := by
  have hrun : next_u32 33 (mkGen 0 oneWordSrc) = some (0, degSt0) := by
    norm_num [next_u32, runLoop, loopStep, next_bit, mkGen, oneWordSrc, degSt0]
  exact ⟨by norm_num, hrun,
    next_u32_mono (mkGen 0 oneWordSrc) 33 40 0 degSt0 (by norm_num) hrun⟩

set_option maxHeartbeats 1000000 in
set_option maxRecDepth 20000 in
/-- Claim C2 fails on the code: evaluation of the binary64 program at the
failing input.  With the accepted probability `p = 0.5 + 2 ^ (-53)` and the
source bit stream `1`, then 51 zeros, then `1`, `1`, the straddle branch
narrows the working interval to the adjacent doubles
`[0.5 + 2 ^ (-53), 0.5 + 2 ^ (-52)]`; the next midpoint `0.5 * (low + high)`
is a round-half-to-even tie that rounds up onto `high`, the bit-1 update
sets `low := high`, and the call nevertheless completes (word `0x7FFFFFFF`
after 86 iterations), persisting `low = high` — so the interval invariant
`0 ≤ low < high ≤ 1` does not hold between calls, against the claim. -/
theorem interval_collapse_f64 :
    (next_u32R 86 (mkGenF pF64 collapseSrc)).map
      (fun r => (r.1, r.2.low, r.2.high, r.2.shift, r.2.bits, r.2.pos)) =
      some (2147483647, ⟨9007199254740932, -74⟩, ⟨9007199254740932, -74⟩, 10, 0, 1) ∧
    F64v.toRat pF64 = (2 ^ 52 + 1) / 2 ^ 53 ∧
    (0 : ℚ) < F64v.toRat pF64 ∧ F64v.toRat pF64 < 1 ∧
    F64v.toRat ⟨9007199254740932, -74⟩ = (2 ^ 51 - 15) / 2 ^ 72 := by
  refine ⟨?_, ?_, ?_, ?_, ?_⟩
  · decide
  · norm_num [F64v.toRat, pF64]
  · norm_num [F64v.toRat, pF64]
  · norm_num [F64v.toRat, pF64]
  · norm_num [F64v.toRat]
